import Mathlib

set_option linter.dupNamespace false

/-!
Verification of the resource discovery, indexing and filtering package
(`pkg/framework/resource`): a shallow embedding of `parse.go`,
`resources.go`, `filter.go` and `resource.go`, with theorems about the
discovery pipeline (`Parser.Resources`), the catalog query surface
(`SortKeys`, `Filter`) and the filter combinators.

Go pointers (`*Resource`) are modelled as addresses (natural numbers)
into an explicit heap (a list of `Resource` cells): `indexResources`
stores addresses in both the name-indexed map and the
group-version-resource table, and `attachSubResources` mutates the
pointed-to cells through the table, exactly as the Go code does through
shared pointers.  Go maps are modelled as association lists.
-/

namespace Kubectl

/-- The fields of `k8s.io/apimachinery` `v1.APIResource` that this package
reads or writes: `Name`, `Group`, `Version`, `Kind`.  The remaining fields
(verbs, short names, ...) are carried opaquely by the Go code and are
omitted. -/
structure APIResource where
  Name : String
  Group : String
  Version : String
  Kind : String
deriving DecidableEq

/-- Model of `schema.GroupVersion`. -/
structure GroupVersion where
  Group : String
  Version : String
deriving DecidableEq

/-- Model of `schema.GroupVersionResource`, the key type of the `bygvr`
table built by `indexResources`. -/
structure GroupVersionResource where
  Group : String
  Version : String
  Resource : String
deriving DecidableEq

/-- Model of `schema.GroupVersionKind`, the argument of
`LookupResource`. -/
structure GroupVersionKind where
  Group : String
  Version : String
  Kind : String
deriving DecidableEq

/-- Model of `v1.APIResourceList`: one announcement, carrying the
`GroupVersion` string and the list of resource descriptors. -/
structure APIResourceList where
  GroupVersion : String
  APIResources : List APIResource
deriving DecidableEq

/-- Model of `SubResource` (resource.go): descriptor, parent
back-reference (a heap address, since the Go field is `*Resource`),
resolved group-version and schema.  The schema type `σ` is a parameter:
`proto.Schema` is opaque to this package. -/
structure SubResource (σ : Type) where
  Resource : APIResource
  Parent : Nat
  ApiGroupVersion : GroupVersion
  Schema : σ
deriving DecidableEq

/-- Model of `Resource` (resource.go): descriptor, resolved
group-version, schema, and the attached subresources. -/
structure Resource (σ : Type) where
  Resource : APIResource
  ApiGroupVersion : GroupVersion
  Schema : σ
  SubResources : List (SubResource σ)
deriving DecidableEq

/-- A heap of `Resource` cells: the targets of the Go `*Resource`
pointers, addressed by position. -/
abbrev Heap (σ : Type) := List (Resource σ)

/-- Model of the Go type `Resources map[string][]*Resource`: an
association list from resource name to the list of heap addresses of its
`Resource` entries. -/
abbrev Resources := List (String × List Nat)

/-- A resolved view of a catalog: each address replaced by the cell it
points to. -/
abbrev Catalog (σ : Type) := List (String × List (Resource σ))

/-- Resolves every address of a catalog map against a heap. -/
def resolveCatalog (heap : Heap σ) (rs : Resources) : Catalog σ :=
  rs.map (fun kv => (kv.1, kv.2.filterMap (fun a => heap[a]?)))

/-- Model of `Parser` (parse.go): the schema lookup collaborator
(`openapi.Resources.LookupResource`, a pure query returning
schema-or-not-found), the already-fetched result of
`discovery.ServerResources()` (a list of announcements or an error of
type `ε`), and the optional group/version restriction.  The `rest`
field of the Go struct is unused by this package and omitted. -/
structure Parser (σ ε : Type) where
  resources : GroupVersionKind → Option σ
  discovery : Except ε (List APIResourceList)
  apiGroup : String
  apiVersion : String

/-- Model of Go `strings.Split` restricted to a one-character separator
(the only use in this package), over a list of characters.  Splitting
the empty list yields `[[]]`, matching `strings.Split("", sep)`. -/
def splitChars (sep : Char) : List Char → List (List Char)
  | [] => [[]]
  | c :: rest =>
    if c = sep then [] :: splitChars sep rest
    else
      match splitChars sep rest with
      | [] => [[c]]
      | p :: ps => (c :: p) :: ps

/-- Model of Go `strings.Split(s, sep)` for the one-character separators
used in this package. -/
def stringSplit (s : String) (sep : Char) : List String :=
  (splitChars sep s.toList).map (fun l => ⟨l⟩)

/-- Model of Go `strings.HasSuffix`. -/
def hasSuffix (s suffix : String) : Bool :=
  suffix.toList.isSuffixOf s.toList

/-- Model of `Parser.subResource` (parse.go): splits a descriptor name on
the slash; returns (resource name, subresource name, is-subresource). -/
def subResource (resource : APIResource) : String × String × Bool :=
  let parts := stringSplit resource.Name '/'
  if parts.length > 1 then (parts.getD 0 "", parts.getD 1 "", true)
  else (parts.getD 0 "", "", false)

/-- Model of `Parser.resource` (parse.go): the resource name and whether
the descriptor is a plain resource (not a subresource). -/
def resource (r : APIResource) : String × Bool :=
  let p := subResource r
  (p.1, !p.2.2)

/-- Model of `Parser.splitGroupVersion` (parse.go): splits the
announcement's `GroupVersion` string into group and version.  Note the
final `"v1"` branch is reachable only when the split yields no parts at
all. -/
def splitGroupVersion (groupVersion : String) : String × String :=
  let parts := stringSplit groupVersion '/'
  let group := if parts.length > 1 then parts.getD 0 "" else ""
  let version :=
    if parts.length > 1 then parts.getD 1 ""
    else if parts.length > 0 then parts.getD 0 ""
    else "v1"
  (group, version)

/-- Model of `Parser.defaultGroupVersion` (parse.go), faithfully
including the second assignment writing `version` into the `Group`
field.  The Go code mutates the descriptor in place; the model returns
the updated descriptor. -/
def defaultGroupVersion (resource : APIResource) (group version : String) : APIResource :=
  let resource :=
    if resource.Group.length = 0 then { resource with Group := group } else resource
  if resource.Version.length = 0 then { resource with Group := version } else resource

/-- Model of `Parser.isGroupVersionMatch` (parse.go). -/
def isGroupVersionMatch (p : Parser σ ε) (group version : String) : Bool :=
  if p.apiGroup.length > 0 && p.apiGroup != group then false
  else if p.apiVersion.length > 0 && p.apiVersion != version then false
  else true

/-- Model of `Parser.getOpenAPI` (parse.go): the `(proto.Schema, bool)`
pair collapses to an `Option`. -/
def getOpenAPI (p : Parser σ ε) (group version kind : String) : Option σ :=
  p.resources ⟨group, version, kind⟩

/-- The state threaded through the two indexing passes: the heap of
allocated `Resource` cells, the name-indexed map `resources`, and the
`bygvr` table (both maps hold heap addresses where Go holds
pointers). -/
structure IndexState (σ : Type) where
  heap : Heap σ
  resources : Resources
  bygvr : List (GroupVersionResource × Nat)

/-- Model of Go `resources[name] = append(resources[name], r)` on the
association-list representation: extend the entry for `name`, or create
it at the end. -/
def appendAt (m : Resources) (k : String) (a : Nat) : Resources :=
  match m with
  | [] => [(k, [a])]
  | (k', v) :: rest => if k' = k then (k', v ++ [a]) :: rest else (k', v) :: appendAt rest k a

/-- Model of a Go map lookup `bygvr[gvr]`: the most recent binding
wins (insertions cons to the front). -/
def gvrLookup (m : List (GroupVersionResource × Nat)) (k : GroupVersionResource) : Option Nat :=
  match m with
  | [] => none
  | (k', a) :: rest => if k' = k then some a else gvrLookup rest k

/-- One announcement of pass 1 of `Parser.indexResources` (parse.go):
default each descriptor, skip subresources, drop descriptors whose
schema does not resolve, and allocate a `Resource` cell recorded in both
maps. -/
def indexResourcesGV (p : Parser σ ε) (st : IndexState σ) (gv : APIResourceList) :
    IndexState σ :=
  let gvsplit := splitGroupVersion gv.GroupVersion
  let group := gvsplit.1
  let version := gvsplit.2
  if !isGroupVersionMatch p group version then st
  else
    gv.APIResources.foldl
      (fun st r =>
        let r := defaultGroupVersion r group version
        let nameRes := resource r
        if !nameRes.2 then st
        else
          match getOpenAPI p group version r.Kind with
          | none => st
          | some newSchema =>
            let addr := st.heap.length
            let newResource : Resource σ :=
              { Resource := r, ApiGroupVersion := ⟨group, version⟩,
                Schema := newSchema, SubResources := [] }
            { heap := st.heap ++ [newResource],
              resources := appendAt st.resources nameRes.1 addr,
              bygvr := (⟨group, version, r.Kind⟩, addr) :: st.bygvr })
      st

/-- Model of `Parser.indexResources` (parse.go): pass 1 over all
announcements, starting from empty maps and an empty heap. -/
def indexResources (p : Parser σ ε) (gvs : List APIResourceList) : IndexState σ :=
  gvs.foldl (indexResourcesGV p) ⟨[], [], []⟩

/-- Appends a subresource to the cell at `addr`, modelling
`parent.SubResources = append(parent.SubResources, subRes)` through a
pointer. -/
def heapAppendSub (heap : Heap σ) (addr : Nat) (sub : SubResource σ) : Heap σ :=
  match heap[addr]? with
  | none => heap
  | some cell => heap.set addr { cell with SubResources := cell.SubResources ++ [sub] }

/-- One announcement of pass 2 (`Parser.attachSubResources`, parse.go):
default each descriptor, keep only subresources whose schema resolves,
look the parent up in `bygvr` by (group, version, parent resource name),
and append a `SubResource` to the parent cell through its address. -/
def attachSubResourcesGV (p : Parser σ ε) (st : IndexState σ) (gv : APIResourceList) :
    IndexState σ :=
  let gvsplit := splitGroupVersion gv.GroupVersion
  let group := gvsplit.1
  let version := gvsplit.2
  if !isGroupVersionMatch p group version then st
  else
    gv.APIResources.foldl
      (fun st r =>
        let r := defaultGroupVersion r group version
        let sub := subResource r
        if !sub.2.2 then st
        else
          match getOpenAPI p group version r.Kind with
          | none => st
          | some newSchema =>
            match gvrLookup st.bygvr ⟨group, version, sub.1⟩ with
            | none => st
            | some parentAddr =>
              let subRes : SubResource σ :=
                { Resource := r, Parent := parentAddr,
                  ApiGroupVersion := ⟨group, version⟩, Schema := newSchema }
              { st with heap := heapAppendSub st.heap parentAddr subRes })
      st

/-- Model of `Parser.attachSubResources` (parse.go): pass 2 over all
announcements; the Go function always returns a `nil` error. -/
def attachSubResources (p : Parser σ ε) (gvs : List APIResourceList) (st : IndexState σ) :
    IndexState σ × Option ε :=
  (gvs.foldl (attachSubResourcesGV p) st, none)

/-- Model of `Parser.Resources` (parse.go), the `Discover()` operation:
fetch the announcements, index, attach subresources, and return the
catalog (resolved against the final heap) together with the error slot.
On a discovery failure the catalog is `none` (the Go `nil` map) and the
error is returned verbatim. -/
def ParserResources (p : Parser σ ε) : Option (Catalog σ) × Option ε :=
  match p.discovery with
  | Except.error err => (none, some err)
  | Except.ok gvs =>
    let st := indexResources p gvs
    let step2 := attachSubResources p gvs st
    (some (resolveCatalog step2.1.heap step2.1.resources), step2.2)

/-- Model of the `Filter` interface (filter.go): a pair of predicates,
one over resources and one over subresources. -/
structure Filter (σ : Type) where
  resource : Resource σ → Bool
  subResource : SubResource σ → Bool

/-- Model of `emptyFilter` (filter.go): both predicates always accept. -/
def emptyFilter : Filter σ :=
  { resource := fun _ => true, subResource := fun _ => true }

/-- Model of `skipSubresourceFilter` (filter.go): the resource predicate
is inherited from the embedded `emptyFilter`; the subresource predicate
rejects names ending in "/status". -/
def skipSubresourceFilter : Filter σ :=
  { resource := fun _ => true,
    subResource := fun sr => !hasSuffix sr.Resource.Name "/status" }

/-- The loop of `andFilter.resource` (filter.go): reject as soon as one
child rejects. -/
def andResource (filters : List (Filter σ)) (r : Resource σ) : Bool :=
  match filters with
  | [] => true
  | f :: rest => if !f.resource r then false else andResource rest r

/-- The loop of `andFilter.subResource` (filter.go). -/
def andSubResource (filters : List (Filter σ)) (sr : SubResource σ) : Bool :=
  match filters with
  | [] => true
  | f :: rest => if !f.subResource sr then false else andSubResource rest sr

/-- Model of `andFilter` (filter.go) over its list of child filters. -/
def andFilter (filters : List (Filter σ)) : Filter σ :=
  { resource := andResource filters, subResource := andSubResource filters }

/-- The loop of `orFilter.resource` (filter.go): accept as soon as one
child accepts. -/
def orResource (filters : List (Filter σ)) (r : Resource σ) : Bool :=
  match filters with
  | [] => false
  | f :: rest => if f.resource r then true else orResource rest r

/-- The loop of `orFilter.subResource` (filter.go). -/
def orSubResource (filters : List (Filter σ)) (sr : SubResource σ) : Bool :=
  match filters with
  | [] => false
  | f :: rest => if f.subResource sr then true else orSubResource rest sr

/-- Model of `orFilter` (filter.go) over its list of child filters. -/
def orFilter (filters : List (Filter σ)) : Filter σ :=
  { resource := orResource filters, subResource := orSubResource filters }

/-- Model of Go byte-wise string comparison (the order used by
`sort.Strings`), over the characters of the two strings. -/
def charListLe : List Char → List Char → Bool
  | [], _ => true
  | _ :: _, [] => false
  | a :: as, b :: bs => if a < b then true else if b < a then false else charListLe as bs

/-- Go string `<=`, as used by `sort.Strings`. -/
def stringLe (a b : String) : Bool :=
  charListLe a.toList b.toList

/-- Model of `Resources.SortKeys` (resources.go): collect the keys of the
map, then `sort.Strings` them.  The function reads the map and builds a
fresh slice; the catalog itself is not touched. -/
def SortKeys (r : Resources) : List String :=
  List.insertionSort (fun a b => stringLe a b = true) (r.map Prod.fst)

/-- Model of `Resources.filterSubResources` (resources.go): a copy of the
resource value whose subresource slice is rebuilt, keeping only the
accepted subresources. -/
def filterSubResources (resource : Resource σ) (filter : Filter σ) : Resource σ :=
  { resource with
    SubResources := resource.SubResources.filter (fun v => filter.subResource v) }

/-- The inner loop of `Resources.Filter` (resources.go) for one key's
address list, against a growing heap: skip rejected or dangling entries;
for an accepted entry allocate a fresh cell holding the filtered copy
(`copy := r.filterSubResources(*version, filter); &copy`) and record its
address. -/
def filterVersions (f : Filter σ) : Heap σ → List Nat → Heap σ × List Nat
  | heap, [] => (heap, [])
  | heap, addr :: rest =>
    match heap[addr]? with
    | none => filterVersions f heap rest
    | some version =>
      if !f.resource version then filterVersions f heap rest
      else
        let copy := filterSubResources version f
        let step := filterVersions f (heap ++ [copy]) rest
        (step.1, heap.length :: step.2)

/-- Model of `Resources.Filter` (resources.go): a brand-new map whose
entries hold addresses of freshly allocated copies; a key is present
only if at least one of its resources was accepted (`filtered[k] =
append(filtered[k], &copy)` creates the entry on first append). -/
def ResourcesFilter (f : Filter σ) : Heap σ → Resources → Heap σ × Resources
  | heap, [] => (heap, [])
  | heap, kv :: rest =>
    let step := filterVersions f heap kv.2
    let next := ResourcesFilter f step.1 rest
    if step.2.isEmpty then next
    else (next.1, (kv.1, step.2) :: next.2)

/-- A write to the subresource slice of the cell at `addr`: the
observable effect of appending to, or overwriting entries of, a
resource's subresource list through a pointer. -/
def writeSubResources (heap : Heap σ) (addr : Nat) (l : List (SubResource σ)) : Heap σ :=
  match heap[addr]? with
  | none => heap
  | some cell => heap.set addr { cell with SubResources := l }

/-- Whether a resource's schema field is exactly what the Schema Lookup
collaborator returns for its resolved group, version and descriptor
kind. -/
def schemaResolved (p : Parser σ ε) (res : Resource σ) : Prop :=
  p.resources ⟨res.ApiGroupVersion.Group, res.ApiGroupVersion.Version, res.Resource.Kind⟩
    = some res.Schema

/-- A concrete schema lookup resolving exactly (apps, v1, Deployment). -/
def demoLookup : GroupVersionKind → Option Nat :=
  fun gvk => if gvk = ⟨"apps", "v1", "Deployment"⟩ then some 0 else none

/-- The announcement of the end-to-end scenario: groupVersion "apps/v1"
with the descriptors deployments and deployments/status. -/
def demoParser : Parser Nat String :=
  { resources := demoLookup,
    discovery := Except.ok [⟨"apps/v1",
      [⟨"deployments", "", "", "Deployment"⟩, ⟨"deployments/status", "", "", "Deployment"⟩]⟩],
    apiGroup := "", apiVersion := "" }

/-- A parser whose discovery source fails. -/
def errParser : Parser Nat String :=
  { resources := fun _ => none, discovery := Except.error "boom",
    apiGroup := "", apiVersion := "" }

/-- A concrete subresource whose name ends in "/status". -/
def srStatus : SubResource Nat :=
  { Resource := ⟨"pods/status", "", "v1", "Pod"⟩, Parent := 0,
    ApiGroupVersion := ⟨"", "v1"⟩, Schema := 0 }

/-- A concrete subresource whose name does not end in "/status". -/
def srLog : SubResource Nat :=
  { Resource := ⟨"pods/log", "", "v1", "Pod"⟩, Parent := 0,
    ApiGroupVersion := ⟨"", "v1"⟩, Schema := 0 }

/-- A concrete resource carrying both subresources. -/
def podsResource : Resource Nat :=
  { Resource := ⟨"pods", "", "v1", "Pod"⟩, ApiGroupVersion := ⟨"", "v1"⟩,
    Schema := 0, SubResources := [srStatus, srLog] }

/-- A one-cell heap holding `podsResource`. -/
def podsHeap : Heap Nat := [podsResource]

/-- The one-entry catalog map over `podsHeap`. -/
def podsMap : Resources := [("pods", [0])]

/-! Auxiliary facts about the Go string order and the filter loops. -/

theorem charListLe_total : ∀ a b : List Char, charListLe a b = true ∨ charListLe b a = true
  | [], _ => Or.inl rfl
  | _ :: _, [] => Or.inr rfl
  | a :: as, b :: bs => by
    rcases lt_trichotomy a b with h | h | h
    · left
      simp [charListLe, h]
    · subst h
      rcases charListLe_total as bs with ih | ih
      · left
        simp [charListLe, lt_irrefl, ih]
      · right
        simp [charListLe, lt_irrefl, ih]
    · right
      simp [charListLe, h]

theorem charListLe_trans :
    ∀ a b c : List Char,
      charListLe a b = true → charListLe b c = true → charListLe a c = true
  | [], _, _, _, _ => rfl
  | _ :: _, [], _, hab, _ => by simp [charListLe] at hab
  | _ :: _, _ :: _, [], _, hbc => by simp [charListLe] at hbc
  | a :: as, b :: bs, c :: cs, hab, hbc => by
    rcases lt_trichotomy a b with h1 | h1 | h1
    · rcases lt_trichotomy b c with h2 | h2 | h2
      · simp [charListLe, h1.trans h2]
      · subst h2
        simp [charListLe, h1]
      · simp [charListLe, h2, lt_asymm h2] at hbc
    · subst h1
      simp only [charListLe, lt_irrefl, if_false] at hab
      rcases lt_trichotomy a c with h2 | h2 | h2
      · simp [charListLe, h2]
      · subst h2
        simp only [charListLe, lt_irrefl, if_false] at hbc ⊢
        exact charListLe_trans as bs cs hab hbc
      · simp [charListLe, h2, lt_asymm h2] at hbc
    · simp [charListLe, h1, lt_asymm h1] at hab

instance : IsTotal String (fun a b => stringLe a b = true) :=
  ⟨fun a b => charListLe_total a.toList b.toList⟩

instance : IsTrans String (fun a b => stringLe a b = true) :=
  ⟨fun a b c => charListLe_trans a.toList b.toList c.toList⟩

theorem andResource_iff (fs : List (Filter σ)) (r : Resource σ) :
    andResource fs r = true ↔ ∀ f ∈ fs, f.resource r = true := by
  induction fs with
  | nil => simp [andResource]
  | cons f rest ih => cases hf : f.resource r <;> simp [andResource, hf, ih]

theorem andSubResource_iff (fs : List (Filter σ)) (sr : SubResource σ) :
    andSubResource fs sr = true ↔ ∀ f ∈ fs, f.subResource sr = true := by
  induction fs with
  | nil => simp [andSubResource]
  | cons f rest ih => cases hf : f.subResource sr <;> simp [andSubResource, hf, ih]

theorem orResource_iff (fs : List (Filter σ)) (r : Resource σ) :
    orResource fs r = true ↔ ∃ f ∈ fs, f.resource r = true := by
  induction fs with
  | nil => simp [orResource]
  | cons f rest ih => cases hf : f.resource r <;> simp [orResource, hf, ih]

theorem orSubResource_iff (fs : List (Filter σ)) (sr : SubResource σ) :
    orSubResource fs sr = true ↔ ∃ f ∈ fs, f.subResource sr = true := by
  induction fs with
  | nil => simp [orSubResource]
  | cons f rest ih => cases hf : f.subResource sr <;> simp [orSubResource, hf, ih]

/-! Claim theorems. -/

/-- C1 (code bug).  The claim — defaulting fills an empty version with
the announcement's version and never writes a version string into the
group field — matches `defaultGroupVersion`'s own doc comment but not
its body: on a descriptor with empty group and version, under the
announcement (apps, v1), the code leaves `Version` empty and overwrites
`Group` with "v1". -/
theorem C1_defaultGroupVersion_writes_version_into_group :
    defaultGroupVersion ⟨"deployments", "", "", "Deployment"⟩ "apps" "v1"
      = ⟨"deployments", "v1", "", "Deployment"⟩ := by decide

/-- C2 (counterexample).  The claim says an empty groupVersion string
derives version "v1"; `splitGroupVersion` actually returns ("", "")
because splitting the empty string yields one empty part, never zero
parts. -/
theorem C2_counterexample_empty_groupVersion :
    splitGroupVersion "" ≠ ("", "v1") := by decide

/-- C2 (amended).  Splitting on '/' gives (part 0, part 1) when there
are at least two parts and ("", the single part) for exactly one part;
an empty groupVersion string therefore derives group "" and version ""
(the "v1" default branch is unreachable). -/
theorem C2_splitGroupVersion_amended (s : String) :
    ((stringSplit s '/').length > 1 →
      splitGroupVersion s = ((stringSplit s '/').getD 0 "", (stringSplit s '/').getD 1 ""))
    ∧ ((stringSplit s '/').length = 1 →
      splitGroupVersion s = ("", (stringSplit s '/').getD 0 ""))
    ∧ splitGroupVersion "" = ("", "") := by
  refine ⟨fun h => ?_, fun h => ?_, by decide⟩
  · simp [splitGroupVersion, h]
  · simp [splitGroupVersion, h]

/-- Witness for C2: at "apps/v1" the split has two parts and the
derivation returns ("apps", "v1"). -/
theorem C2_splitGroupVersion_amended_witness :
    (stringSplit "apps/v1" '/').length > 1 ∧ splitGroupVersion "apps/v1" = ("apps", "v1") :=
  ⟨by decide, ((C2_splitGroupVersion_amended "apps/v1").1 (by decide)).trans (by decide)⟩

/-- C3 (code bug).  In the end-to-end scenario the claim expects the
catalog entry "deployments" to carry the subresource
"deployments/status"; the code drops the subresource because pass 1
keys the parent table by kind ("Deployment") while pass 2 looks the
parent up by resource name ("deployments"), so the subresource list is
empty.  (The descriptor's Group field also shows the C1 defaulting
slip.) -/
theorem C3_discover_drops_status_subresource :
    ParserResources demoParser =
      (some [("deployments",
        [{ Resource := ⟨"deployments", "v1", "", "Deployment"⟩,
           ApiGroupVersion := ⟨"apps", "v1"⟩, Schema := 0, SubResources := [] }])],
       none) := by decide

/-- C5.  The AND combinator over an empty child list accepts every
resource and subresource, the OR combinator over an empty child list
rejects them, and in general AND accepts exactly when every child
accepts while OR accepts exactly when at least one child does. -/
theorem C5_and_or_filter_semantics (σ : Type) (r : Resource σ) (sr : SubResource σ)
    (fs : List (Filter σ)) :
    (andFilter ([] : List (Filter σ))).resource r = true
    ∧ (andFilter ([] : List (Filter σ))).subResource sr = true
    ∧ (orFilter ([] : List (Filter σ))).resource r = false
    ∧ (orFilter ([] : List (Filter σ))).subResource sr = false
    ∧ ((andFilter fs).resource r = true ↔ ∀ f ∈ fs, f.resource r = true)
    ∧ ((andFilter fs).subResource sr = true ↔ ∀ f ∈ fs, f.subResource sr = true)
    ∧ ((orFilter fs).resource r = true ↔ ∃ f ∈ fs, f.resource r = true)
    ∧ ((orFilter fs).subResource sr = true ↔ ∃ f ∈ fs, f.subResource sr = true) :=
  ⟨rfl, rfl, rfl, rfl, andResource_iff fs r, andSubResource_iff fs sr,
   orResource_iff fs r, orSubResource_iff fs sr⟩

/-- C7.  `SortKeys` returns exactly the keys of the catalog (a
permutation of them, without duplicates when the keys are distinct, as
Go map keys always are), sorted by the byte-wise string order used by
`sort.Strings`; the catalog itself is read, not mutated. -/
theorem C7_sortKeys_sorted_perm (r : Resources) (h : (r.map Prod.fst).Nodup) :
    (SortKeys r).Perm (r.map Prod.fst)
    ∧ (SortKeys r).Sorted (fun a b => stringLe a b = true)
    ∧ (SortKeys r).Nodup :=
  ⟨List.perm_insertionSort _ _, List.sorted_insertionSort _ _,
   ((List.perm_insertionSort _ _).nodup_iff).mpr h⟩

/-- Witness for C7 on the catalog with keys pods, nodes, services: the
result is exactly ["nodes", "pods", "services"]. -/
theorem C7_sortKeys_witness :
    SortKeys [("pods", [0]), ("nodes", [1]), ("services", [2])] = ["nodes", "pods", "services"]
    ∧ ((SortKeys [("pods", [0]), ("nodes", [1]), ("services", [2])]).Perm
        (([("pods", [0]), ("nodes", [1]), ("services", [2])] : Resources).map Prod.fst)
      ∧ (SortKeys [("pods", [0]), ("nodes", [1]), ("services", [2])]).Sorted
          (fun a b => stringLe a b = true)
      ∧ (SortKeys [("pods", [0]), ("nodes", [1]), ("services", [2])]).Nodup) :=
  ⟨by decide, C7_sortKeys_sorted_perm [("pods", [0]), ("nodes", [1]), ("services", [2])]
    (by decide)⟩

/-- C8.  `Parser.Resources` (Discover) fails exactly when the discovery
source fails, surfacing that error verbatim with a nil catalog;
when discovery succeeds the error slot is nil and a catalog is returned,
whatever the lookups did. -/
theorem C8_discover_error_propagation (σ ε : Type) (p : Parser σ ε) :
    (∀ e : ε, p.discovery = Except.error e → ParserResources p = (none, some e))
    ∧ (∀ gvs : List APIResourceList, p.discovery = Except.ok gvs →
        ∃ cat : Catalog σ, ParserResources p = (some cat, none)) := by
  constructor
  · intro e he
    simp [ParserResources, he]
  · intro gvs hok
    refine ⟨resolveCatalog ((attachSubResources p gvs (indexResources p gvs)).1).heap
      ((attachSubResources p gvs (indexResources p gvs)).1).resources, ?_⟩
    simp [ParserResources, hok, attachSubResources]

/-- Witness for C8: a failing discovery source surfaces its error with
no catalog, and the demo announcement list yields a catalog with no
error. -/
theorem C8_discover_error_propagation_witness :
    ParserResources errParser = (none, some "boom")
    ∧ ∃ cat : Catalog Nat, ParserResources demoParser = (some cat, none) :=
  ⟨(C8_discover_error_propagation Nat String errParser).1 "boom" rfl,
   (C8_discover_error_propagation Nat String demoParser).2 _ rfl⟩

theorem foldl_preserve {β α : Type _} {P : β → Prop} {f : β → α → β}
    (hf : ∀ b a, P b → P (f b a)) :
    ∀ (l : List α) (b : β), P b → P (l.foldl f b) := by
  intro l
  induction l with
  | nil => intro b hb; exact hb
  | cons x xs ih => intro b hb; exact ih (f b x) (hf b x hb)

theorem heapAppendSub_pred {P : Resource σ → Prop}
    (hP : ∀ (res : Resource σ) (l : List (SubResource σ)),
      P res → P { res with SubResources := l })
    (heap : Heap σ) (addr : Nat) (sub : SubResource σ)
    (h : ∀ res ∈ heap, P res) :
    ∀ res ∈ heapAppendSub heap addr sub, P res := by
  unfold heapAppendSub
  split
  · exact h
  · rename_i cell hcell
    intro res hres
    rcases List.mem_or_eq_of_mem_set hres with hmem | heq
    · exact h res hmem
    · subst heq
      exact hP cell _ (h cell (List.getElem?_mem hcell))

theorem indexResourcesGV_heap_resolved (p : Parser σ ε) (gv : APIResourceList)
    (st : IndexState σ) (h : ∀ res ∈ st.heap, schemaResolved p res) :
    ∀ res ∈ (indexResourcesGV p st gv).heap, schemaResolved p res := by
  unfold indexResourcesGV
  dsimp only
  split
  · exact h
  · refine foldl_preserve (P := fun s : IndexState σ => ∀ res ∈ s.heap, schemaResolved p res)
      ?_ gv.APIResources st h
    intro st' r hst'
    dsimp only
    split
    · exact hst'
    · split
      · exact hst'
      · rename_i newSchema heq
        intro res hres
        rcases List.mem_append.mp hres with hold | hnew
        · exact hst' res hold
        · have hres' := List.mem_singleton.mp hnew
          subst hres'
          simpa [schemaResolved] using heq

theorem attachSubResourcesGV_heap_resolved (p : Parser σ ε) (gv : APIResourceList)
    (st : IndexState σ) (h : ∀ res ∈ st.heap, schemaResolved p res) :
    ∀ res ∈ (attachSubResourcesGV p st gv).heap, schemaResolved p res := by
  unfold attachSubResourcesGV
  dsimp only
  split
  · exact h
  · refine foldl_preserve (P := fun s : IndexState σ => ∀ res ∈ s.heap, schemaResolved p res)
      ?_ gv.APIResources st h
    intro st' r hst'
    dsimp only
    split
    · exact hst'
    · split
      · exact hst'
      · split
        · exact hst'
        · exact heapAppendSub_pred (fun res l hr => hr) st'.heap _ _ hst'

theorem discover_heap_resolved (p : Parser σ ε) (gvs : List APIResourceList) :
    ∀ res ∈ ((attachSubResources p gvs (indexResources p gvs)).1).heap, schemaResolved p res := by
  have h1 : ∀ res ∈ (indexResources p gvs).heap, schemaResolved p res := by
    unfold indexResources
    refine foldl_preserve (P := fun s : IndexState σ => ∀ res ∈ s.heap, schemaResolved p res)
      (fun st gv hst => indexResourcesGV_heap_resolved p gv st hst) gvs ⟨[], [], []⟩ ?_
    intro res hres
    simp at hres
  unfold attachSubResources
  dsimp only
  exact foldl_preserve (P := fun s : IndexState σ => ∀ res ∈ s.heap, schemaResolved p res)
    (fun st gv hst => attachSubResourcesGV_heap_resolved p gv st hst) gvs _ h1

/-- C9.  Every resource of a catalog returned by Discover carries
exactly the schema the Schema Lookup resolved for its group, version
and kind; a descriptor whose lookup returned not-found never reaches
the catalog. -/
theorem C9_catalog_schema_resolved (σ ε : Type) (p : Parser σ ε) (cat : Catalog σ)
    (h : (ParserResources p).1 = some cat) :
    ∀ kv ∈ cat, ∀ res ∈ kv.2,
      p.resources ⟨res.ApiGroupVersion.Group, res.ApiGroupVersion.Version, res.Resource.Kind⟩
        = some res.Schema := by
  intro kv hkv res hres
  cases hd : p.discovery with
  | error e => simp [ParserResources, hd] at h
  | ok gvs =>
    have hcat : cat = resolveCatalog ((attachSubResources p gvs (indexResources p gvs)).1).heap
        ((attachSubResources p gvs (indexResources p gvs)).1).resources := by
      simp [ParserResources, hd, attachSubResources] at h
      simpa [attachSubResources] using h.symm
    subst hcat
    simp only [resolveCatalog, List.mem_map] at hkv
    obtain ⟨kv₀, hkv₀, rfl⟩ := hkv
    simp only [List.mem_filterMap] at hres
    obtain ⟨a, ha, hga⟩ := hres
    exact discover_heap_resolved p gvs res (List.getElem?_mem hga)

/-- The catalog entry Discover produces from the demo announcement. -/
def demoCatalogEntry : Resource Nat :=
  { Resource := ⟨"deployments", "v1", "", "Deployment"⟩,
    ApiGroupVersion := ⟨"apps", "v1"⟩, Schema := 0, SubResources := [] }

/-- Witness for C9 at the demo announcement: the single catalog entry
resolves through the demo lookup. -/
theorem C9_catalog_schema_resolved_witness :
    demoParser.resources
        ⟨demoCatalogEntry.ApiGroupVersion.Group, demoCatalogEntry.ApiGroupVersion.Version,
          demoCatalogEntry.Resource.Kind⟩
      = some demoCatalogEntry.Schema :=
  C9_catalog_schema_resolved Nat String demoParser
    [("deployments", [demoCatalogEntry])] (by decide)
    ("deployments", [demoCatalogEntry]) (by decide)
    demoCatalogEntry (by decide)

/-- C10.  A key of a filtered catalog always maps to a non-empty list:
the Go map entry is only created when the first accepted copy is
appended. -/
theorem C10_filter_no_empty_keys (σ : Type) (f : Filter σ) (heap : Heap σ) (r : Resources) :
    ∀ kv ∈ (ResourcesFilter f heap r).2, kv.2 ≠ [] := by
  induction r generalizing heap with
  | nil =>
    intro kv hkv
    simp [ResourcesFilter] at hkv
  | cons kv₀ rest ih =>
    intro kv hkv
    simp only [ResourcesFilter] at hkv
    by_cases hemp : (filterVersions f heap kv₀.2).2.isEmpty = true
    · rw [if_pos hemp] at hkv
      exact ih _ kv hkv
    · rw [if_neg hemp] at hkv
      rcases List.mem_cons.mp hkv with heq | hmem
      · subst heq
        simpa using (List.isEmpty_eq_false.mp (Bool.not_eq_true _ ▸ Bool.of_not_eq_true hemp))
      · exact ih _ kv hmem

/-- Witness for C10: the filtered pods catalog contains the key "pods"
with the non-empty address list [1]. -/
theorem C10_filter_no_empty_keys_witness :
    ("pods", [1]) ∈ (ResourcesFilter emptyFilter podsHeap podsMap).2
    ∧ (("pods", [1]) : String × List Nat).2 ≠ [] :=
  ⟨by decide, C10_filter_no_empty_keys Nat emptyFilter podsHeap podsMap ("pods", [1]) (by decide)⟩

theorem filterVersions_heap_shape (f : Filter σ) :
    ∀ (v : List Nat) (heap : Heap σ), ∃ ext, (filterVersions f heap v).1 = heap ++ ext := by
  intro v
  induction v with
  | nil => exact fun heap => ⟨[], (List.append_nil heap).symm⟩
  | cons addr rest ih =>
    intro heap
    simp only [filterVersions]
    cases haddr : heap[addr]? with
    | none => exact ih heap
    | some version =>
      by_cases hacc : f.resource version = true
      · obtain ⟨ext, hext⟩ := ih (heap ++ [filterSubResources version f])
        refine ⟨filterSubResources version f :: ext, ?_⟩
        simp [hacc, hext]
      · simp only [Bool.not_eq_true] at hacc
        simpa [hacc] using ih heap

theorem ResourcesFilter_heap_shape (f : Filter σ) :
    ∀ (r : Resources) (heap : Heap σ), ∃ ext, (ResourcesFilter f heap r).1 = heap ++ ext := by
  intro r
  induction r with
  | nil => exact fun heap => ⟨[], (List.append_nil heap).symm⟩
  | cons kv rest ih =>
    intro heap
    simp only [ResourcesFilter]
    obtain ⟨e1, he1⟩ := filterVersions_heap_shape f kv.2 heap
    obtain ⟨e2, he2⟩ := ih (filterVersions f heap kv.2).1
    have h12 : (ResourcesFilter f (filterVersions f heap kv.2).1 rest).1 = heap ++ (e1 ++ e2) := by
      rw [he2, he1, List.append_assoc]
    by_cases hemp : (filterVersions f heap kv.2).2.isEmpty = true
    · exact ⟨e1 ++ e2, by simp [hemp, h12]⟩
    · exact ⟨e1 ++ e2, by simp [hemp, h12]⟩

theorem filterVersions_addr_bounds (f : Filter σ) :
    ∀ (v : List Nat) (heap : Heap σ), ∀ a ∈ (filterVersions f heap v).2,
      heap.length ≤ a ∧ a < (filterVersions f heap v).1.length := by
  intro v
  induction v with
  | nil =>
    intro heap a ha
    simp [filterVersions] at ha
  | cons addr rest ih =>
    intro heap a ha
    simp only [filterVersions] at ha ⊢
    cases haddr : heap[addr]? with
    | none =>
      rw [haddr] at ha
      exact ih heap a ha
    | some version =>
      rw [haddr] at ha
      by_cases hacc : f.resource version = true
      · simp only [hacc, Bool.not_true, Bool.false_eq_true, if_false] at ha ⊢
        obtain ⟨ext, hext⟩ :=
          filterVersions_heap_shape f rest (heap ++ [filterSubResources version f])
        rcases List.mem_cons.mp ha with heq | hmem
        · subst heq
          constructor
          · exact le_refl _
          · rw [hext]
            simp
        · have hb := ih (heap ++ [filterSubResources version f]) a hmem
          constructor
          · calc heap.length ≤ (heap ++ [filterSubResources version f]).length := by simp
              _ ≤ a := hb.1
          · exact hb.2
      · simp only [Bool.not_eq_true] at hacc
        simp only [hacc, Bool.not_false, if_true] at ha ⊢
        exact ih heap a ha

theorem filterMap_getElem_stable (h1 ext : Heap σ) :
    ∀ l : List Nat, (∀ a ∈ l, a < h1.length) →
      l.filterMap (fun a => (h1 ++ ext)[a]?) = l.filterMap (fun a => h1[a]?) := by
  intro l hl
  induction l with
  | nil => rfl
  | cons a rest ih =>
    have ha : a < h1.length := hl a (List.mem_cons_self a rest)
    simp only [List.filterMap_cons, List.getElem?_append_left ha]
    rw [ih (fun x hx => hl x (List.mem_cons_of_mem a hx))]

theorem filterVersions_content (f : Filter σ) :
    ∀ (v : List Nat) (heap₀ ext₀ : Heap σ),
      (∀ a ∈ v, a < heap₀.length) →
      ((filterVersions f (heap₀ ++ ext₀) v).2).filterMap
          (fun a => (filterVersions f (heap₀ ++ ext₀) v).1[a]?)
        = ((v.filterMap (fun a => heap₀[a]?)).filter (fun res => f.resource res)).map
            (fun res => filterSubResources res f) := by
  intro v
  induction v with
  | nil =>
    intro heap₀ ext₀ hv
    simp [filterVersions]
  | cons addr rest ih =>
    intro heap₀ ext₀ hv
    have haddr : addr < heap₀.length := hv addr (List.mem_cons_self addr rest)
    have hsome : (heap₀ ++ ext₀)[addr]? = some heap₀[addr] := by
      rw [List.getElem?_append_left haddr]
      exact List.getElem?_eq_getElem haddr
    have hrest : ∀ a ∈ rest, a < heap₀.length := fun a ha => hv a (List.mem_cons_of_mem addr ha)
    simp only [filterVersions, hsome, List.filterMap_cons]
    rw [List.getElem?_eq_getElem haddr]
    by_cases hacc : f.resource heap₀[addr] = true
    · simp only [hacc, Bool.not_true, Bool.false_eq_true, if_false, if_true, List.filter_cons,
        List.map_cons, List.filterMap_cons]
      have hext := ih heap₀ (ext₀ ++ [filterSubResources heap₀[addr] f]) hrest
      rw [← List.append_assoc] at hext
      have hhead :
          (filterVersions f ((heap₀ ++ ext₀) ++ [filterSubResources heap₀[addr] f]) rest).1[
            (heap₀ ++ ext₀).length]? = some (filterSubResources heap₀[addr] f) := by
        obtain ⟨ext, hext2⟩ :=
          filterVersions_heap_shape f rest ((heap₀ ++ ext₀) ++ [filterSubResources heap₀[addr] f])
        rw [hext2, List.append_assoc, List.getElem?_append_right (le_refl _)]
        simp
      simp only [hhead, hext]
    · simp only [Bool.not_eq_true] at hacc
      simp only [hacc, Bool.not_false, if_true, List.filter_cons, Bool.false_eq_true, if_false]
      exact ih heap₀ ext₀ hrest

theorem ResourcesFilter_addr_bounds (f : Filter σ) :
    ∀ (r : Resources) (heap : Heap σ), ∀ kv ∈ (ResourcesFilter f heap r).2, ∀ a ∈ kv.2,
      heap.length ≤ a ∧ a < (ResourcesFilter f heap r).1.length := by
  intro r
  induction r with
  | nil =>
    intro heap kv hkv
    simp [ResourcesFilter] at hkv
  | cons kv₀ rest ih =>
    intro heap kv hkv a ha
    simp only [ResourcesFilter] at hkv ⊢
    by_cases hemp : (filterVersions f heap kv₀.2).2.isEmpty = true
    · rw [if_pos hemp] at hkv ⊢
      have hb := ih _ kv hkv a ha
      obtain ⟨e1, he1⟩ := filterVersions_heap_shape f kv₀.2 heap
      refine ⟨le_trans ?_ hb.1, hb.2⟩
      rw [he1]
      simp
    · rw [if_neg hemp] at hkv ⊢
      rcases List.mem_cons.mp hkv with heq | hmem
      · subst heq
        have hb := filterVersions_addr_bounds f kv₀.2 heap a (by simpa using ha)
        obtain ⟨e2, he2⟩ := ResourcesFilter_heap_shape f rest (filterVersions f heap kv₀.2).1
        refine ⟨hb.1, ?_⟩
        rw [he2]
        calc a < (filterVersions f heap kv₀.2).1.length := hb.2
          _ ≤ ((filterVersions f heap kv₀.2).1 ++ e2).length := by simp
      · have hb := ih _ kv hmem a ha
        obtain ⟨e1, he1⟩ := filterVersions_heap_shape f kv₀.2 heap
        refine ⟨le_trans ?_ hb.1, hb.2⟩
        rw [he1]
        simp

theorem ResourcesFilter_content (f : Filter σ) (hRes : ∀ x : Resource σ, f.resource x = true) :
    ∀ (r : Resources) (heap₀ ext₀ : Heap σ),
      (∀ kv ∈ r, ∀ a ∈ kv.2, a < heap₀.length) →
      (∀ kv ∈ r, kv.2 ≠ []) →
      resolveCatalog (ResourcesFilter f (heap₀ ++ ext₀) r).1
          (ResourcesFilter f (heap₀ ++ ext₀) r).2
        = r.map (fun kv => (kv.1, (kv.2.filterMap (fun a => heap₀[a]?)).map
            (fun res => filterSubResources res f))) := by
  intro r
  induction r with
  | nil =>
    intro heap₀ ext₀ _ _
    rfl
  | cons kv rest ih =>
    intro heap₀ ext₀ hvalid hne
    have hv : ∀ a ∈ kv.2, a < heap₀.length := hvalid kv (List.mem_cons_self kv rest)
    have hvrest : ∀ kv' ∈ rest, ∀ a ∈ kv'.2, a < heap₀.length :=
      fun kv' h' => hvalid kv' (List.mem_cons_of_mem kv h')
    have hnerest : ∀ kv' ∈ rest, kv'.2 ≠ [] := fun kv' h' => hne kv' (List.mem_cons_of_mem kv h')
    have hkvne : kv.2 ≠ [] := hne kv (List.mem_cons_self kv rest)
    have hcontent := filterVersions_content f kv.2 heap₀ ext₀ hv
    have hfilter : (kv.2.filterMap (fun a => heap₀[a]?)).filter (fun res => f.resource res)
        = kv.2.filterMap (fun a => heap₀[a]?) :=
      List.filter_eq_self.mpr (fun res _ => hRes res)
    rw [hfilter] at hcontent
    obtain ⟨a0, ha0⟩ := List.exists_mem_of_ne_nil kv.2 hkvne
    have ha0lt : a0 < heap₀.length := hv a0 ha0
    have hmem0 : heap₀[a0] ∈ kv.2.filterMap (fun a => heap₀[a]?) :=
      List.mem_filterMap.mpr ⟨a0, ha0, List.getElem?_eq_getElem ha0lt⟩
    have hstep2 : (filterVersions f (heap₀ ++ ext₀) kv.2).2 ≠ [] := by
      intro hcontra
      rw [hcontra] at hcontent
      simp only [List.filterMap_nil] at hcontent
      have hnil : kv.2.filterMap (fun a => heap₀[a]?) = [] := by
        have hmapnil := hcontent.symm
        rwa [List.map_eq_nil_iff] at hmapnil
      rw [hnil] at hmem0
      simp at hmem0
    have hempfalse : ¬((filterVersions f (heap₀ ++ ext₀) kv.2).2.isEmpty = true) := by
      simpa [List.isEmpty_iff] using hstep2
    simp only [ResourcesFilter]
    rw [if_neg hempfalse]
    obtain ⟨e1, he1⟩ := filterVersions_heap_shape f kv.2 (heap₀ ++ ext₀)
    obtain ⟨e2, he2⟩ :=
      ResourcesFilter_heap_shape f rest (filterVersions f (heap₀ ++ ext₀) kv.2).1
    have hhead : (filterVersions f (heap₀ ++ ext₀) kv.2).2.filterMap
        (fun a => (ResourcesFilter f (filterVersions f (heap₀ ++ ext₀) kv.2).1 rest).1[a]?)
        = (kv.2.filterMap (fun a => heap₀[a]?)).map (fun res => filterSubResources res f) := by
      rw [he2]
      rw [filterMap_getElem_stable _ e2 _
        (fun a ha => (filterVersions_addr_bounds f kv.2 (heap₀ ++ ext₀) a ha).2)]
      exact hcontent
    have htail : resolveCatalog (ResourcesFilter f (filterVersions f (heap₀ ++ ext₀) kv.2).1 rest).1
        (ResourcesFilter f (filterVersions f (heap₀ ++ ext₀) kv.2).1 rest).2
        = rest.map (fun kv => (kv.1, (kv.2.filterMap (fun a => heap₀[a]?)).map
            (fun res => filterSubResources res f))) := by
      have hstep1 : (filterVersions f (heap₀ ++ ext₀) kv.2).1 = heap₀ ++ (ext₀ ++ e1) := by
        rw [he1, List.append_assoc]
      rw [hstep1]
      exact ih heap₀ (ext₀ ++ e1) hvrest hnerest
    simp only [resolveCatalog, List.map_cons] at htail ⊢
    rw [hhead, htail]

theorem filterSubResources_empty (res : Resource σ) :
    filterSubResources res emptyFilter = res := by
  simp [filterSubResources, emptyFilter]

/-- C4.  Filtering with the accept-all filter returns a catalog whose
resolved content equals the original's, while every entry of the result
is a freshly allocated copy: all result addresses lie beyond the
original heap, the original cells are untouched by the operation, and
writing any subresource list into a filtered copy (appending to it or
overwriting its entries) leaves every original resource cell
unchanged. -/
theorem C4_filter_accept_all_deep_copy (σ : Type) (heap : Heap σ) (r : Resources)
    (hvalid : ∀ kv ∈ r, ∀ a ∈ kv.2, a < heap.length)
    (hne : ∀ kv ∈ r, kv.2 ≠ []) :
    resolveCatalog (ResourcesFilter emptyFilter heap r).1 (ResourcesFilter emptyFilter heap r).2
        = resolveCatalog heap r
    ∧ (∀ kv ∈ (ResourcesFilter emptyFilter heap r).2, ∀ a ∈ kv.2, heap.length ≤ a)
    ∧ (∀ i, i < heap.length → (ResourcesFilter emptyFilter heap r).1[i]? = heap[i]?)
    ∧ (∀ kv ∈ (ResourcesFilter emptyFilter heap r).2, ∀ a ∈ kv.2,
        ∀ l : List (SubResource σ), ∀ kv₀ ∈ r, ∀ a₀ ∈ kv₀.2,
          (writeSubResources (ResourcesFilter emptyFilter heap r).1 a l)[a₀]? = heap[a₀]?) := by
  have hold : ∀ i, i < heap.length → (ResourcesFilter emptyFilter heap r).1[i]? = heap[i]? := by
    intro i hi
    obtain ⟨ext, hext⟩ := ResourcesFilter_heap_shape emptyFilter r heap
    rw [hext]
    exact List.getElem?_append_left hi
  refine ⟨?_, ?_, hold, ?_⟩
  · have hc := ResourcesFilter_content emptyFilter (fun x => rfl) r heap [] hvalid hne
    rw [List.append_nil] at hc
    rw [hc]
    simp [resolveCatalog, filterSubResources_empty]
  · intro kv hkv a ha
    exact (ResourcesFilter_addr_bounds emptyFilter r heap kv hkv a ha).1
  · intro kv hkv a ha l kv₀ hkv₀ a₀ ha₀
    have hfresh := (ResourcesFilter_addr_bounds emptyFilter r heap kv hkv a ha).1
    have ha₀lt : a₀ < heap.length := hvalid kv₀ hkv₀ a₀ ha₀
    have hneq : a ≠ a₀ := by omega
    unfold writeSubResources
    split
    · exact hold a₀ ha₀lt
    · rw [List.getElem?_set_ne hneq]
      exact hold a₀ ha₀lt

/-- Witness for C4 on the pods catalog: the accept-all filter keeps the
content, allocates fresh cells only, and writes through the copy do not
reach the original. -/
theorem C4_filter_accept_all_deep_copy_witness :
    (resolveCatalog (ResourcesFilter emptyFilter podsHeap podsMap).1
        (ResourcesFilter emptyFilter podsHeap podsMap).2 = resolveCatalog podsHeap podsMap)
    ∧ (∀ kv ∈ (ResourcesFilter emptyFilter podsHeap podsMap).2, ∀ a ∈ kv.2,
        podsHeap.length ≤ a)
    ∧ (∀ i, i < podsHeap.length →
        (ResourcesFilter emptyFilter podsHeap podsMap).1[i]? = podsHeap[i]?)
    ∧ (∀ kv ∈ (ResourcesFilter emptyFilter podsHeap podsMap).2, ∀ a ∈ kv.2,
        ∀ l : List (SubResource Nat), ∀ kv₀ ∈ podsMap, ∀ a₀ ∈ kv₀.2,
          (writeSubResources (ResourcesFilter emptyFilter podsHeap podsMap).1 a l)[a₀]?
            = podsHeap[a₀]?) :=
  C4_filter_accept_all_deep_copy Nat podsHeap podsMap (by decide) (by decide)

/-- C6.  Filtering with the skip-status-subresource filter keeps every
resource of the catalog in place and order (even when all its
subresources go away) and removes exactly the subresources whose
descriptor name ends in "/status", preserving the order of the rest. -/
theorem C6_skip_status_filter (σ : Type) (heap : Heap σ) (r : Resources)
    (hvalid : ∀ kv ∈ r, ∀ a ∈ kv.2, a < heap.length)
    (hne : ∀ kv ∈ r, kv.2 ≠ []) :
    resolveCatalog (ResourcesFilter skipSubresourceFilter heap r).1
        (ResourcesFilter skipSubresourceFilter heap r).2
      = (resolveCatalog heap r).map (fun kv => (kv.1, kv.2.map (fun res =>
          { res with SubResources :=
              res.SubResources.filter (fun sr => !hasSuffix sr.Resource.Name "/status") }))) := by
  have hc := ResourcesFilter_content skipSubresourceFilter (fun x => rfl) r heap [] hvalid hne
  rw [List.append_nil] at hc
  rw [hc]
  simp [resolveCatalog, filterSubResources, skipSubresourceFilter, List.map_map]

/-- Witness for C6 on the pods catalog: pods/status is removed, pods/log
survives, the pods resource itself survives. -/
theorem C6_skip_status_filter_witness :
    resolveCatalog (ResourcesFilter skipSubresourceFilter podsHeap podsMap).1
        (ResourcesFilter skipSubresourceFilter podsHeap podsMap).2
      = [("pods", [{ podsResource with SubResources := [srLog] }])] :=
  (C6_skip_status_filter Nat podsHeap podsMap (by decide) (by decide)).trans (by decide)

end Kubectl
